import Mathlib

/-!
Verification development for the customer-segmentation analysis pipeline
(`customer_segmentation_notebook.ipynb`).

The notebook's analytic core is embedded shallowly:
* the Reporter cell (`segmented_data = df.copy()` plus two appended label
  columns) as `segmentedData`;
* the preprocessing cell (gender encoding via `Series.map` and
  `StandardScaler.fit_transform`) over `ℝ`, following scikit-learn's
  documented semantics (population statistics, zero standard deviations
  replaced by 1, missing values disregarded in fit and kept in transform);
* the elbow-selection cell (the `kneed.KneeLocator` call; the library code
  is not part of the repository, so the locator is modelled from the spec);
* the K-Means and DBSCAN clusterers over `ℚ` (library code not in the
  repository; modelled from the spec's algorithm descriptions, with the
  notebook's fixed parameters available as concrete instances);
* the DBSCAN silhouette guard cell (`if len(set(dbscan_labels)) > 1`).
-/

namespace Seg

/-! ## Reporter (notebook section 7): `segmented_data` -/

/-- One row of `Mall_Customers.csv`, as loaded into `df`.  `gender` is the
original string (the Reporter starts from `df.copy()`, not from the encoded
`data`). -/
structure CustomerRecord where
  customerID : ℕ
  gender : String
  age : ℤ
  annualIncome : ℤ
  spendingScore : ℤ
deriving DecidableEq

/-- One row of `segmented_customers.csv`: the original row plus the two
appended integer label columns. -/
structure SegmentedRow where
  base : CustomerRecord
  kmeansCluster : ℤ
  dbscanCluster : ℤ
deriving DecidableEq

/-- The Reporter cell: `segmented_data = df.copy()`, then
`segmented_data['KMeans_Cluster'] = data['KMeans_Cluster']` and
`segmented_data['DBSCAN_Cluster'] = data['DBSCAN_Cluster']`. -/
def segmentedData (df : List CustomerRecord) (km db : List ℤ) : List SegmentedRow :=
  List.zipWith (fun r (p : ℤ × ℤ) => ⟨r, p.1, p.2⟩) df (km.zip db)

/-- Header of the input CSV. -/
def inputHeader : List String :=
  ["CustomerID", "Gender", "Age", "Annual Income (k$)", "Spending Score (1-100)"]

/-- Header of `segmented_customers.csv`: the input columns with the two label
columns appended. -/
def outputHeader : List String := inputHeader ++ ["KMeans_Cluster", "DBSCAN_Cluster"]

/-! ## Cluster-count selector (notebook section 5) -/

/-- The sweep `range(2, 11)` of candidate cluster counts. -/
def rangeNClusters : List ℕ := List.range' 2 9

/-- The loop body `wcss.append(kmeans.inertia_)`: one recorded inertia per
candidate count. -/
def sweepWcss (inertiaOf : ℕ → ℚ) : List ℚ := rangeNClusters.map inertiaOf

/-- The loop body `silhouette_scores.append(...)`: one recorded mean
silhouette per candidate count. -/
def sweepSilhouette (silOf : ℕ → ℚ) : List ℚ := rangeNClusters.map silOf

/-- Signed distance-from-chord numerator: for endpoints `p0`, `p1` of the
inertia curve and a sample point `q`, this is `(chord height at q.1 - q.2)`
scaled by the positive constant `p1.1 - p0.1`.  Positive exactly when `q`
lies strictly below the chord of a decreasing curve. -/
def chordGap (p0 p1 q : ℚ × ℚ) : ℚ :=
  (p1.2 - p0.2) * (q.1 - p0.1) - (q.2 - p0.2) * (p1.1 - p0.1)

/-- First element attaining the maximum of `f`, so ties are broken toward
the earlier (smaller-count) candidate. -/
def maxBy {α : Type} (f : α → ℚ) : List α → Option α
  | [] => none
  | a :: rest =>
    match maxBy f rest with
    | none => some a
    | some b => if f a < f b then some b else some a

/-- Modelled from the spec: the `kneed.KneeLocator(range_n_clusters, wcss,
curve="convex", direction="decreasing")` call of the notebook; the kneed
library's code is not part of this repository.  Per the spec, the elbow is
the point of maximum curvature, located as the point of maximum distance
from the chord connecting the curve's endpoints, with ties broken toward
the smaller count; with fewer than 3 points, or when no point lies strictly
below the chord (the curve is not usably convex), no elbow is found and
`none` is surfaced (the locator's `kl.elbow is None`). -/
def elbowSelect (pts : List (ℚ × ℚ)) : Option ℚ :=
  if pts.length < 3 then none
  else
    let p0 := pts.headD (0, 0)
    let p1 := pts.getLastD (0, 0)
    match maxBy (chordGap p0 p1) pts with
    | some q => if 0 < chordGap p0 p1 q then some q.1 else none
    | none => none

/-! ## DBSCAN silhouette guard (notebook section 6) -/

/-- The guard `len(set(dbscan_labels)) > 1` of the silhouette cell: `set()`
is the finite set of distinct labels, noise label `-1` included. -/
def silhouetteGuard (ls : List ℤ) : Bool := decide (1 < ls.toFinset.card)

/-- Number of distinct non-noise clusters in a labelling (distinct labels
with the noise sentinel `-1` removed). -/
def nonNoiseClusterCount (ls : List ℤ) : ℕ := (ls.toFinset.erase (-1)).card

/-- Outcome of the silhouette cell: the score was computed, or the
computation raised and the exception was caught and printed, or the cell
skipped the metric (the guard failed; nothing is printed in that case). -/
inductive SilOutcome where
  | computed (v : ℚ)
  | failedCaught (msg : String)
  | skipped
deriving DecidableEq

/-- The silhouette cell: compute only under the guard, catching any error
raised by the score computation; otherwise skip.  `score` abstracts the
`silhouette_score(X_scaled, dbscan_labels)` library call, which may raise. -/
def silhouetteCell (score : List ℤ → Except String ℚ) (ls : List ℤ) : SilOutcome :=
  if silhouetteGuard ls then
    match score ls with
    | Except.ok v => SilOutcome.computed v
    | Except.error e => SilOutcome.failedCaught e
  else SilOutcome.skipped

/-! ## Gender encoding (notebook section 3) -/

/-- The `data['Gender'].map({'Male': 0, 'Female': 1})` encoding: a pandas
`Series.map` with a dict maps values absent from the dict to a missing
value (NaN), raising no error; missing is modelled as `none`. -/
def genderCode (s : String) : Option ℝ :=
  if s = "Male" then some 0 else if s = "Female" then some 1 else none

/-! ## Standardization (notebook section 3): `StandardScaler.fit_transform`

scikit-learn's `StandardScaler` centres with the column mean and scales with
the population standard deviation (`ddof = 0`); a zero standard deviation is
replaced by 1 (`_handle_zeros_in_scale`: "If the variance is zero, we can't
achieve unit variance, and the data is left as-is, giving a scaling factor
of 1"), so the transform never fails.  Missing values are disregarded when
fitting and maintained in the transform. -/

/-- Column mean. -/
noncomputable def listMean (xs : List ℝ) : ℝ := xs.sum / xs.length

/-- Column population variance (`ddof = 0`). -/
noncomputable def listVar (xs : List ℝ) : ℝ :=
  ((xs.map fun x => (x - listMean xs) ^ 2).sum) / xs.length

/-- Column population standard deviation. -/
noncomputable def listStd (xs : List ℝ) : ℝ := Real.sqrt (listVar xs)

/-- The scale actually divided by: the standard deviation, with zero
replaced by 1. -/
noncomputable def scaleOf (xs : List ℝ) : ℝ := if listStd xs = 0 then 1 else listStd xs

/-- `fit_transform` on one feature column. -/
noncomputable def fitTransformCol (xs : List ℝ) : List ℝ :=
  xs.map fun x => (x - listMean xs) / scaleOf xs

/-- `fit_transform` on the feature matrix `X`, held column-wise (the scaler
fits each feature column independently). -/
noncomputable def fitTransformMatrix (cols : List (List ℝ)) : List (List ℝ) :=
  cols.map fitTransformCol

/-- Values present (non-missing) in a column with missing entries. -/
def presentVals (xs : List (Option ℝ)) : List ℝ := xs.filterMap id

/-- `fit_transform` on a feature column containing missing values: the
statistics are fitted on the present values only and missing entries are
maintained in the output. -/
noncomputable def fitTransformColOpt (xs : List (Option ℝ)) : List (Option ℝ) :=
  xs.map (Option.map fun v =>
    (v - listMean (presentVals xs)) / scaleOf (presentVals xs))

/-! ## K-Means clusterer (notebook section 5)

The notebook calls `KMeans(n_clusters=k, random_state=42, n_init=10)
.fit_predict(X_scaled)`.  The scikit-learn code is not part of this
repository; the clusterer is modelled from the spec (section 4.3): seeded
initialization, then Lloyd iteration — assign each point to its nearest
centroid by Euclidean distance, recompute each centroid as the mean of its
assigned points — until the centroids stop changing or the maximum
iteration count is reached, running `n_init` independent seeded restarts
and keeping the lowest-inertia result.  Exact rational arithmetic replaces
floating point; squared Euclidean distance is used throughout (the nearest
centroid and the inertia depend only on squared distances). -/

/-- A data point in standardized feature space. -/
def Pt (d : ℕ) : Type := Fin d → ℚ

instance : DecidableEq (Pt d) := fun p q => Fintype.decidablePiFintype p q

/-- The all-zeros point, used as the out-of-range default. -/
def originPt (d : ℕ) : Pt d := fun _ => 0

/-- Squared Euclidean distance. -/
def sqDist {d : ℕ} (p q : Pt d) : ℚ := ∑ i, (p i - q i) ^ 2

/-- Squared distance from a point to the closest centroid in the list
(0 for an empty list). -/
def minSqDist {d : ℕ} (p : Pt d) : List (Pt d) → ℚ
  | [] => 0
  | [c] => sqDist p c
  | c :: c2 :: cs => min (sqDist p c) (minSqDist p (c2 :: cs))

/-- Index of the nearest centroid, ties broken toward the smaller index
(as `numpy.argmin` does). -/
def nearestIdx {d : ℕ} (p : Pt d) : List (Pt d) → ℕ
  | [] => 0
  | [_] => 0
  | c :: c2 :: cs =>
    if sqDist p c ≤ minSqDist p (c2 :: cs) then 0 else nearestIdx p (c2 :: cs) + 1

/-- Mean of a group of points, coordinate-wise. -/
def centroidOf {d : ℕ} (grp : List (Pt d)) : Pt d :=
  fun i => (grp.map fun p => p i).sum / grp.length

/-- One Lloyd iteration: recompute centroid `j` as the mean of the points
whose nearest centroid is `j`; a centroid that lost all its points is kept
in place. -/
def kmeansStep {d : ℕ} (ps cs : List (Pt d)) : List (Pt d) :=
  (List.range cs.length).map fun j =>
    let grp := ps.filter fun p => nearestIdx p cs == j
    if grp.isEmpty then cs.getD j (originPt d) else centroidOf grp

/-- Inertia: total squared distance from each point to its nearest
centroid (`kmeans.inertia_`). -/
def phi {d : ℕ} (ps cs : List (Pt d)) : ℚ := (ps.map fun p => minSqDist p cs).sum

/-- Exactly `n` Lloyd iterations. -/
def kmeansIter {d : ℕ} (ps : List (Pt d)) : ℕ → List (Pt d) → List (Pt d)
  | 0, cs => cs
  | n + 1, cs => kmeansIter ps n (kmeansStep ps cs)

/-- The convergence loop: iterate until the centroids stop changing, for
at most the configured maximum iteration count (the fuel `n`). -/
def kmeansLoop {d : ℕ} (ps : List (Pt d)) : ℕ → List (Pt d) → List (Pt d)
  | 0, cs => cs
  | n + 1, cs =>
    let cs2 := kmeansStep ps cs
    if cs2 = cs then cs else kmeansLoop ps n cs2

/-- A deterministic pseudo-random step (a linear congruential generator):
the model of the seeded random source `random_state=42`. -/
def lcgNext (s : ℕ) : ℕ := (1103515245 * s + 12345) % 4294967296

/-- The first `k` states drawn from the seeded generator. -/
def lcgSeq (s : ℕ) : ℕ → List ℕ
  | 0 => []
  | k + 1 => lcgNext s :: lcgSeq (lcgNext s) k

/-- Seeded initialization: `K` initial centroids picked deterministically
from the data by the seeded generator. -/
def initCentroids {d : ℕ} (seed K : ℕ) (ps : List (Pt d)) : List (Pt d) :=
  (lcgSeq seed K).map fun r => ps.getD (r % ps.length) (originPt d)

/-- scikit-learn's default maximum iteration count (`max_iter=300`). -/
def maxIterDefault : ℕ := 300

/-- The notebook's restart count (`n_init=10`). -/
def nInitDefault : ℕ := 10

/-- Lowest-inertia result among the restarts, ties kept from the earlier
restart. -/
def bestRun {d : ℕ} (ps : List (Pt d)) : List (List (Pt d)) → List (Pt d)
  | [] => []
  | [c] => c
  | c :: c2 :: cs =>
    let b := bestRun ps (c2 :: cs)
    if phi ps b < phi ps c then b else c

/-- `KMeans(n_clusters=K, random_state=seed, n_init=10).fit`: the final
centroids of the best of 10 seeded restarts. -/
def kmeansFit {d : ℕ} (ps : List (Pt d)) (K seed : ℕ) : List (Pt d) :=
  bestRun ps
    ((lcgSeq seed nInitDefault).map fun s =>
      kmeansLoop ps maxIterDefault (initCentroids s K ps))

/-- Labels: each point is assigned its nearest centroid's index. -/
def kmeansPredict {d : ℕ} (ps cs : List (Pt d)) : List ℕ :=
  ps.map fun p => nearestIdx p cs

/-- `fit_predict(X_scaled)`: the cluster assignment of every input point. -/
def kmeansFitPredict {d : ℕ} (ps : List (Pt d)) (K seed : ℕ) : List ℕ :=
  kmeansPredict ps (kmeansFit ps K seed)

/-! ## DBSCAN clusterer (notebook section 6)

The notebook calls `DBSCAN(eps=1.1, min_samples=3).fit_predict(X_scaled)`.
The scikit-learn code is not part of this repository; the clusterer is
modelled from the spec (section 4.4): a point is a core point when its
eps-neighborhood (itself included) has at least `min_samples` members;
clusters are formed by transitively connecting core points within eps of
each other; a non-core point within eps of some core point joins that core
point's cluster (border point); the remaining points are noise, labelled
with the sentinel -1; cluster labels are the contiguous integers
`0 .. k-1`.  Distances within eps are compared by squared distance against
`eps^2`. -/

/-- The eps-neighborhood of point `i` (indices into `ps`, `i` itself
included since its distance to itself is 0). -/
def dNeighbors {d : ℕ} (eps : ℚ) (ps : List (Pt d)) (i : ℕ) : List ℕ :=
  (List.range ps.length).filter fun j =>
    decide (sqDist (ps.getD i (originPt d)) (ps.getD j (originPt d)) ≤ eps ^ 2)

/-- Core point: at least `minPts` members in its eps-neighborhood. -/
def isCorePt {d : ℕ} (eps : ℚ) (minPts : ℕ) (ps : List (Pt d)) (i : ℕ) : Bool :=
  decide (minPts ≤ (dNeighbors eps ps i).length)

/-- Adjacency of the core-point graph: both endpoints are core points lying
within eps of each other. -/
def coreAdj {d : ℕ} (eps : ℚ) (minPts : ℕ) (ps : List (Pt d)) (i j : ℕ) : Bool :=
  isCorePt eps minPts ps i && isCorePt eps minPts ps j &&
    decide (sqDist (ps.getD i (originPt d)) (ps.getD j (originPt d)) ≤ eps ^ 2)

/-- One breadth-first expansion step over the core-point graph. -/
def expandOnce (adj : ℕ → ℕ → Bool) (n : ℕ) (s : List ℕ) : List ℕ :=
  (List.range n).filter fun j => s.contains j || s.any fun i => adj i j

/-- `k`-fold expansion. -/
def expandN (adj : ℕ → ℕ → Bool) (n : ℕ) : ℕ → List ℕ → List ℕ
  | 0, s => s
  | k + 1, s => expandN adj n k (expandOnce adj n s)

/-- The connected component of `i` in the core-point graph (`n` expansion
steps saturate a graph on `n` vertices). -/
def component (adj : ℕ → ℕ → Bool) (n i : ℕ) : List ℕ := expandN adj n n [i]

/-- Canonical representative of a point's core-graph component: its
smallest member. -/
def dbscanRep {d : ℕ} (eps : ℚ) (minPts : ℕ) (ps : List (Pt d)) (i : ℕ) : ℕ :=
  (component (coreAdj eps minPts ps) ps.length i).foldr min i

/-- Indices of the core points, in increasing order. -/
def coreIndices {d : ℕ} (eps : ℚ) (minPts : ℕ) (ps : List (Pt d)) : List ℕ :=
  (List.range ps.length).filter fun i => isCorePt eps minPts ps i

/-- The distinct component representatives of the core points, in order of
first appearance: cluster `m` is the component of representative
`clusterReps[m]`. -/
def clusterReps {d : ℕ} (eps : ℚ) (minPts : ℕ) (ps : List (Pt d)) : List ℕ :=
  ((coreIndices eps minPts ps).map (dbscanRep eps minPts ps)).dedup

/-- The first core point within eps of point `i`, if any. -/
def dbscanBorder {d : ℕ} (eps : ℚ) (minPts : ℕ) (ps : List (Pt d)) (i : ℕ) : Option ℕ :=
  ((coreIndices eps minPts ps).filter fun c =>
    decide (sqDist (ps.getD i (originPt d)) (ps.getD c (originPt d)) ≤ eps ^ 2)).head?

/-- The DBSCAN label of point `i`: a core point gets its component's
cluster number; a non-core point within eps of some core point joins the
first such core point's cluster (border point); otherwise it is noise,
labelled -1. -/
def dbscanLabelOf {d : ℕ} (eps : ℚ) (minPts : ℕ) (ps : List (Pt d)) (i : ℕ) : ℤ :=
  if isCorePt eps minPts ps i then
    ((clusterReps eps minPts ps).indexOf (dbscanRep eps minPts ps i) : ℤ)
  else
    (dbscanBorder eps minPts ps i).elim (-1) fun c =>
      ((clusterReps eps minPts ps).indexOf (dbscanRep eps minPts ps c) : ℤ)

/-- `fit_predict`: the label of every input point. -/
def dbscanLabels {d : ℕ} (eps : ℚ) (minPts : ℕ) (ps : List (Pt d)) : List ℤ :=
  (List.range ps.length).map (dbscanLabelOf eps minPts ps)

/-- A chain of eps-neighborhood hops between point indices. -/
inductive EpsChain {d : ℕ} (eps : ℚ) (ps : List (Pt d)) : ℕ → ℕ → Prop
  | refl (i : ℕ) : EpsChain eps ps i i
  | step {i j k : ℕ} :
      sqDist (ps.getD i (originPt d)) (ps.getD j (originPt d)) ≤ eps ^ 2 →
      EpsChain eps ps j k → EpsChain eps ps i k

/-- The notebook's DBSCAN parameters: `eps=1.1`, `min_samples=3`. -/
def epsNotebook : ℚ := 11 / 10

/-- The notebook's `min_samples`. -/
def minSamplesNotebook : ℕ := 3

/-! ## Theorems -/

/-- The three columns of the Reporter's output, row by row. -/
theorem segmentedData_cols (df : List CustomerRecord) (km db : List ℤ)
    (hkm : km.length = df.length) (hdb : db.length = df.length) :
    (segmentedData df km db).map SegmentedRow.base = df ∧
    (segmentedData df km db).map SegmentedRow.kmeansCluster = km ∧
    (segmentedData df km db).map SegmentedRow.dbscanCluster = db := by
  induction df generalizing km db with
  | nil =>
    cases km with
    | nil =>
      cases db with
      | nil => simp [segmentedData]
      | cons b db => simp at hdb
    | cons k km => simp at hkm
  | cons r df ih =>
    cases km with
    | nil => simp at hkm
    | cons k km =>
      cases db with
      | nil => simp at hdb
      | cons b db =>
        obtain ⟨h1, h2, h3⟩ := ih km db (by simpa using hkm) (by simpa using hdb)
        simp only [segmentedData, List.zip_cons_cons, List.zipWith_cons_cons,
          List.map_cons] at h1 h2 h3 ⊢
        exact ⟨by rw [h1], by rw [h2], by rw [h3]⟩

/-- C1: the Reporter's output has exactly one row per input row, every
original column value unchanged (the base record, gender string included,
is copied from `df`), plus exactly the two appended integer-valued label
columns `KMeans_Cluster` and `DBSCAN_Cluster`, populated for every row. -/
theorem reporter_roundtrip (df : List CustomerRecord) (km db : List ℤ)
    (hkm : km.length = df.length) (hdb : db.length = df.length) :
    (segmentedData df km db).length = df.length ∧
    (segmentedData df km db).map SegmentedRow.base = df ∧
    (segmentedData df km db).map SegmentedRow.kmeansCluster = km ∧
    (segmentedData df km db).map SegmentedRow.dbscanCluster = db ∧
    outputHeader = inputHeader ++ ["KMeans_Cluster", "DBSCAN_Cluster"] := by
  obtain ⟨h1, h2, h3⟩ := segmentedData_cols df km db hkm hdb
  refine ⟨?_, h1, h2, h3, rfl⟩
  calc (segmentedData df km db).length
      = ((segmentedData df km db).map SegmentedRow.base).length :=
        (List.length_map _ _).symm
    _ = df.length := by rw [h1]

/-- Witness for C1 at a concrete two-row dataset. -/
theorem reporter_roundtrip_witness :
    (segmentedData
        [⟨1, "Male", 19, 15, 39⟩, ⟨2, "Female", 21, 15, 81⟩]
        [0, 1] [0, -1]).map SegmentedRow.base =
      [⟨1, "Male", 19, 15, 39⟩, ⟨2, "Female", 21, 15, 81⟩] :=
  (reporter_roundtrip
    [⟨1, "Male", 19, 15, 39⟩, ⟨2, "Female", 21, 15, 81⟩]
    [0, 1] [0, -1] rfl rfl).2.1

/-- C3: the selector sweeps counts 2..10 and records one inertia and one
mean silhouette per count; on the convex decreasing inertia curve
`[100, 40, 35, 33, 32, 31]` over counts 2..7 it selects the knee count 3
(the point of maximum curvature), which is neither the first nor the last
candidate; on the curve `[100, 50, 20, 10]` over counts 2..5, where counts
3 and 4 tie for maximum distance from the chord, the tie is broken toward
the smaller count. -/
theorem elbow_selector_spec :
    elbowSelect [(2, 100), (3, 40), (4, 35), (5, 33), (6, 32), (7, 31)] = some 3 ∧
    (3 : ℚ) ≠ 2 ∧ (3 : ℚ) ≠ 7 ∧
    elbowSelect [(2, 100), (3, 50), (4, 20), (5, 10)] = some 3 ∧
    chordGap (2, 100) (5, 10) (3, 50) = chordGap (2, 100) (5, 10) (4, 20) ∧
    rangeNClusters = [2, 3, 4, 5, 6, 7, 8, 9, 10] ∧
    (∀ f : ℕ → ℚ, sweepWcss f = [f 2, f 3, f 4, f 5, f 6, f 7, f 8, f 9, f 10]) ∧
    (∀ g : ℕ → ℚ, sweepSilhouette g = [g 2, g 3, g 4, g 5, g 6, g 7, g 8, g 9, g 10]) :=
  ⟨by norm_num [elbowSelect, maxBy, chordGap], by norm_num, by norm_num,
    by norm_num [elbowSelect, maxBy, chordGap], by norm_num [chordGap], by decide,
    fun f => rfl, fun g => rfl⟩

/-- C4: with fewer than 3 points the selector surfaces `none` (no elbow
found), and on a curve that is not usably convex (the concave decreasing
curve `[100, 90, 10]`, which lies strictly above its chord) it also
surfaces `none`, so the caller must supply a manual count. -/
theorem elbow_no_elbow_surfaced :
    (∀ pts : List (ℚ × ℚ), pts.length < 3 → elbowSelect pts = none) ∧
    elbowSelect [(2, 100), (3, 90), (4, 10)] = none := by
  constructor
  · intro pts h
    unfold elbowSelect
    rw [if_pos h]
  · norm_num [elbowSelect, maxBy, chordGap]

/-- Witness for C4 at a concrete two-point curve. -/
theorem elbow_no_elbow_witness :
    elbowSelect [((2 : ℚ), (100 : ℚ)), (3, 40)] = none :=
  elbow_no_elbow_surfaced.1 [(2, 100), (3, 40)] (by decide)

/-- C8 counterexample: for the labelling `[-1, 0, 0]` there is exactly one
distinct non-noise cluster, yet the guard `len(set(labels)) > 1` holds
(noise counts as a label) and the cell computes the silhouette score, so
the score is not computed *only* when at least 2 non-noise clusters
exist. -/
theorem silhouette_guard_counterexample :
    silhouetteGuard [-1, 0, 0] = true ∧
    nonNoiseClusterCount [-1, 0, 0] = 1 ∧
    silhouetteCell (fun _ => Except.ok 0) [-1, 0, 0] = SilOutcome.computed 0 := by
  refine ⟨by decide, by decide, by decide⟩

/-- C8 amended: the silhouette score is computed exactly when the labelling
has at least 2 distinct labels with the noise label counted as a cluster —
equivalently, at least 2 distinct non-noise clusters, or at least 1
non-noise cluster together with noise; with fewer distinct labels the cell
skips the metric silently; errors raised by the computation are caught, and
every run ends in one of the three outcomes (the pipeline does not
crash). -/
theorem silhouette_guard_amended :
    (∀ ls : List ℤ, silhouetteGuard ls = true ↔
      (2 ≤ nonNoiseClusterCount ls ∨
        (1 ≤ nonNoiseClusterCount ls ∧ (-1 : ℤ) ∈ ls))) ∧
    (∀ score ls, silhouetteGuard ls = false →
      silhouetteCell score ls = SilOutcome.skipped) ∧
    (∀ score ls v, silhouetteCell score ls = SilOutcome.computed v →
      silhouetteGuard ls = true) ∧
    (∀ score ls, silhouetteCell score ls = SilOutcome.skipped ∨
      (∃ v, silhouetteCell score ls = SilOutcome.computed v) ∨
      ∃ e, silhouetteCell score ls = SilOutcome.failedCaught e) := by
  refine ⟨?_, ?_, ?_, ?_⟩
  · intro ls
    unfold silhouetteGuard nonNoiseClusterCount
    rw [decide_eq_true_eq]
    by_cases hm : (-1 : ℤ) ∈ ls
    · have hmf : (-1 : ℤ) ∈ ls.toFinset := List.mem_toFinset.mpr hm
      have hc : (ls.toFinset.erase (-1)).card = ls.toFinset.card - 1 :=
        Finset.card_erase_of_mem hmf
      have hpos : 1 ≤ ls.toFinset.card := Finset.card_pos.mpr ⟨-1, hmf⟩
      constructor
      · intro h
        right
        exact ⟨by omega, hm⟩
      · rintro (h | ⟨h, _⟩) <;> omega
    · have he : ls.toFinset.erase (-1) = ls.toFinset :=
        Finset.erase_eq_of_not_mem fun h => hm (List.mem_toFinset.mp h)
      rw [he]
      constructor
      · intro h
        left
        omega
      · rintro (h | ⟨_, hmem⟩)
        · omega
        · exact absurd hmem hm
  · intro score ls h
    simp [silhouetteCell, h]
  · intro score ls v h
    by_cases hg : silhouetteGuard ls = true
    · exact hg
    · rw [Bool.not_eq_true] at hg
      simp [silhouetteCell, hg] at h
  · intro score ls
    by_cases hg : silhouetteGuard ls = true
    · cases hsc : score ls with
      | ok v =>
        right; left
        exact ⟨v, by simp [silhouetteCell, hg, hsc]⟩
      | error e =>
        right; right
        exact ⟨e, by simp [silhouetteCell, hg, hsc]⟩
    · rw [Bool.not_eq_true] at hg
      left
      simp [silhouetteCell, hg]

/-- Witness for the amended C8 at a one-cluster labelling, where the cell
skips the metric. -/
theorem silhouette_guard_amended_witness :
    silhouetteCell (fun _ => Except.ok 0) [(0 : ℤ), 0] = SilOutcome.skipped :=
  silhouette_guard_amended.2.1 (fun _ => Except.ok 0) [(0 : ℤ), 0] (by decide)

/-- C10: the encoding maps exactly "Male" to 0 and "Female" to 1; any other
gender string becomes a missing value with no error raised at the encoding
step, and a missing entry of a feature column is maintained (still missing)
in the standardized output of that column. -/
theorem gender_encoding_nan :
    genderCode "Male" = some 0 ∧ genderCode "Female" = some 1 ∧
    (∀ s : String, s ≠ "Male" → s ≠ "Female" → genderCode s = none) ∧
    (∀ (xs : List (Option ℝ)) (i : ℕ), xs[i]? = some none →
      (fitTransformColOpt xs)[i]? = some none) := by
  refine ⟨by simp [genderCode], by simp [genderCode], ?_, ?_⟩
  · intro s h1 h2
    unfold genderCode
    rw [if_neg h1, if_neg h2]
  · intro xs i h
    unfold fitTransformColOpt
    rw [List.getElem?_map, h]
    rfl

/-- Sum of a constant-shifted column. -/
theorem sum_map_sub_const {R : Type} [CommRing R] (xs : List R) (m : R) :
    (xs.map fun x => x - m).sum = xs.sum - xs.length * m := by
  induction xs with
  | nil => simp
  | cons a l ih =>
    simp only [List.map_cons, List.sum_cons, List.length_cons, ih,
      Nat.cast_add, Nat.cast_one]
    ring

/-- Expansion of a sum of squared deviations. -/
theorem sum_map_sq_expand {R : Type} [CommRing R] (xs : List R) (m : R) :
    (xs.map fun x => (x - m) ^ 2).sum =
      (xs.map fun x => x ^ 2).sum - 2 * m * xs.sum + xs.length * m ^ 2 := by
  induction xs with
  | nil => simp
  | cons a l ih =>
    simp only [List.map_cons, List.sum_cons, List.length_cons, ih,
      Nat.cast_add, Nat.cast_one]
    ring

/-- The mean minimizes the sum of squared deviations. -/
theorem sum_sq_dev_mean_le {K : Type} [LinearOrderedField K] (xs : List K) (m : K) :
    (xs.map fun x => (x - xs.sum / xs.length) ^ 2).sum ≤
      (xs.map fun x => (x - m) ^ 2).sum := by
  rcases eq_or_ne xs [] with rfl | hne
  · simp
  · have hn : (xs.length : K) ≠ 0 :=
      Nat.cast_ne_zero.mpr (List.length_pos.mpr hne).ne'
    have hnn : (0 : K) ≤ (xs.length : K) := Nat.cast_nonneg _
    rw [sum_map_sq_expand, sum_map_sq_expand]
    set μ := xs.sum / (xs.length : K) with hμ
    have hS : xs.sum = μ * xs.length := by rw [hμ, div_mul_cancel₀ _ hn]
    rw [hS]
    nlinarith [mul_nonneg hnn (sq_nonneg (μ - m))]

/-- The population variance is nonnegative. -/
theorem listVar_nonneg (xs : List ℝ) : 0 ≤ listVar xs := by
  unfold listVar
  apply div_nonneg
  · apply List.sum_nonneg
    intro x hx
    obtain ⟨y, _, rfl⟩ := List.mem_map.mp hx
    positivity
  · positivity

/-- A column with nonzero standard deviation is nonempty. -/
theorem listStd_ne_zero_nonempty {xs : List ℝ} (h : listStd xs ≠ 0) : xs ≠ [] := by
  intro hxs
  subst hxs
  simp [listStd, listVar, listMean] at h

/-- A nonzero standard deviation means a nonzero variance. -/
theorem listVar_ne_zero {xs : List ℝ} (h : listStd xs ≠ 0) : listVar xs ≠ 0 :=
  fun hv => h (by unfold listStd; rw [hv, Real.sqrt_zero])

/-- Under a nonzero standard deviation the scaler divides by the standard
deviation itself, exactly as the spec's formula `(x - mean) / std` says. -/
theorem fitTransformCol_eq {xs : List ℝ} (h : listStd xs ≠ 0) :
    fitTransformCol xs = xs.map fun x => (x - listMean xs) / listStd xs := by
  unfold fitTransformCol scaleOf
  rw [if_neg h]

/-- The standardized column has mean 0. -/
theorem mean_fitTransformCol {xs : List ℝ} (h : listStd xs ≠ 0) :
    listMean (fitTransformCol xs) = 0 := by
  have hne : xs ≠ [] := listStd_ne_zero_nonempty h
  have hn : (xs.length : ℝ) ≠ 0 :=
    Nat.cast_ne_zero.mpr (List.length_pos.mpr hne).ne'
  unfold listMean
  rw [fitTransformCol_eq h, List.length_map]
  have hmul : (xs.map fun x => (x - listMean xs) / listStd xs)
      = xs.map fun x => (x - listMean xs) * (listStd xs)⁻¹ := by
    simp [div_eq_mul_inv]
  have hzero : (xs.map fun x => (x - listMean xs) * (listStd xs)⁻¹).sum = 0 := by
    rw [List.sum_map_mul_right, sum_map_sub_const]
    have : xs.sum - xs.length * listMean xs = 0 := by
      unfold listMean
      field_simp
    rw [this, zero_mul]
  rw [hmul, hzero, zero_div]

/-- The standardized column has standard deviation 1. -/
theorem std_fitTransformCol {xs : List ℝ} (h : listStd xs ≠ 0) :
    listStd (fitTransformCol xs) = 1 := by
  have hne : xs ≠ [] := listStd_ne_zero_nonempty h
  have hn : (xs.length : ℝ) ≠ 0 :=
    Nat.cast_ne_zero.mpr (List.length_pos.mpr hne).ne'
  have hv0 : listVar xs ≠ 0 := listVar_ne_zero h
  have hsq : listStd xs ^ 2 = listVar xs := Real.sq_sqrt (listVar_nonneg xs)
  have hsum : (xs.map fun x => (x - listMean xs) ^ 2).sum = listVar xs * xs.length := by
    unfold listVar
    field_simp
  have hvar : listVar (fitTransformCol xs) = 1 := by
    unfold listVar
    rw [mean_fitTransformCol h, fitTransformCol_eq h, List.length_map, List.map_map]
    have hcomp : ((fun y => (y - 0) ^ 2) ∘ fun x => (x - listMean xs) / listStd xs)
        = fun x => (x - listMean xs) ^ 2 * ((listStd xs ^ 2)⁻¹) := by
      funext x
      simp only [Function.comp_apply, sub_zero, div_pow, div_eq_mul_inv]
      ring
    rw [hcomp, List.sum_map_mul_right, hsum, hsq]
    field_simp
  unfold listStd
  rw [hvar, Real.sqrt_one]

/-- C2: when every feature column of the matrix has nonzero standard
deviation, every column of the scaler's output has mean 0 and standard
deviation exactly 1, and each output column is computed as
`(x - mean) / std` over the whole column. -/
theorem standardization_mean_zero_std_one (cols : List (List ℝ))
    (h : ∀ xs ∈ cols, listStd xs ≠ 0) :
    ∀ ys ∈ fitTransformMatrix cols,
      listMean ys = 0 ∧ listStd ys = 1 ∧
      ∃ xs ∈ cols, ys = xs.map fun x => (x - listMean xs) / listStd xs := by
  intro ys hys
  obtain ⟨xs, hxs, rfl⟩ := List.mem_map.mp hys
  exact ⟨mean_fitTransformCol (h xs hxs), std_fitTransformCol (h xs hxs),
    xs, hxs, fitTransformCol_eq (h xs hxs)⟩

/-- Witness for C2 at the one-column matrix `[[1, 3]]`. -/
theorem standardization_witness :
    listMean (fitTransformCol [1, 3]) = 0 ∧ listStd (fitTransformCol [1, 3]) = 1 := by
  have hstd : listStd [(1 : ℝ), 3] = 1 := by
    have hv : listVar [(1 : ℝ), 3] = 1 := by
      norm_num [listVar, listMean]
    unfold listStd
    rw [hv, Real.sqrt_one]
  have h : ∀ xs ∈ [[(1 : ℝ), 3]], listStd xs ≠ 0 := by
    intro xs hxs
    rw [List.mem_singleton] at hxs
    subst hxs
    rw [hstd]
    norm_num
  have := standardization_mean_zero_std_one [[1, 3]] h (fitTransformCol [1, 3])
    (by simp [fitTransformMatrix])
  exact ⟨this.1, this.2.1⟩

/-- C5 counterexample: on the constant column `[5, 5, 5]` the scaler does
not fail; it produces the output column `[0, 0, 0]` (the zero standard
deviation is replaced by the scale 1, per scikit-learn's documented
zero-variance handling). -/
theorem constant_column_counterexample :
    fitTransformCol [5, 5, 5] = [0, 0, 0] := by
  have hm : listMean [(5 : ℝ), 5, 5] = 5 := by
    norm_num [listMean]
  have hv : listVar [(5 : ℝ), 5, 5] = 0 := by
    unfold listVar
    rw [hm]
    norm_num
  have hs : listStd [(5 : ℝ), 5, 5] = 0 := by
    unfold listStd
    rw [hv, Real.sqrt_zero]
  unfold fitTransformCol scaleOf
  rw [if_pos hs, hm]
  norm_num

/-- C5 amended: a constant feature column never makes the standardization
step fail — the scaler replaces the zero standard deviation by 1 and the
column standardizes to all zeros (the feature is centred and left
unscaled). -/
theorem constant_column_scaled_to_zero (c : ℝ) (n : ℕ) (hn : 0 < n) :
    fitTransformCol (List.replicate n c) = List.replicate n 0 := by
  have hn' : (n : ℝ) ≠ 0 := Nat.cast_ne_zero.mpr hn.ne'
  have hm : listMean (List.replicate n c) = c := by
    unfold listMean
    rw [List.sum_replicate, List.length_replicate, nsmul_eq_mul]
    field_simp
  have hv : listVar (List.replicate n c) = 0 := by
    unfold listVar
    rw [hm]
    have hmap : (List.replicate n c).map (fun x => (x - c) ^ 2) =
        List.replicate n 0 := by
      rw [List.map_replicate]
      norm_num
    rw [hmap, List.sum_replicate]
    simp
  have hs : listStd (List.replicate n c) = 0 := by
    unfold listStd
    rw [hv, Real.sqrt_zero]
  unfold fitTransformCol scaleOf
  rw [if_pos hs, hm, List.map_replicate]
  norm_num

/-- Witness for the amended C5 at the concrete column `[5, 5, 5]`. -/
theorem constant_column_scaled_witness :
    fitTransformCol (List.replicate 3 (5 : ℝ)) = List.replicate 3 0 :=
  constant_column_scaled_to_zero 5 3 (by norm_num)

/-- The minimum squared distance is a lower bound over the centroid list. -/
theorem minSqDist_le_of_mem {d : ℕ} (p : Pt d) :
    ∀ (cs : List (Pt d)) (c : Pt d), c ∈ cs → minSqDist p cs ≤ sqDist p c
  | [], c, hc => absurd hc (List.not_mem_nil c)
  | [c0], c, hc => by
    rcases List.mem_singleton.mp hc with rfl
    simp [minSqDist]
  | c0 :: c1 :: cs, c, hc => by
    rcases List.mem_cons.mp hc with rfl | h
    · simp only [minSqDist]
      exact min_le_left _ _
    · have ih := minSqDist_le_of_mem p (c1 :: cs) c h
      simp only [minSqDist]
      exact le_trans (min_le_right _ _) ih

/-- The nearest-centroid index is in range. -/
theorem nearestIdx_lt_length {d : ℕ} (p : Pt d) :
    ∀ cs : List (Pt d), cs ≠ [] → nearestIdx p cs < cs.length
  | [], h => absurd rfl h
  | [_], _ => by simp [nearestIdx]
  | c0 :: c1 :: cs, _ => by
    simp only [nearestIdx]
    split
    · simp
    · have ih := nearestIdx_lt_length p (c1 :: cs) (by simp)
      simpa [List.length_cons] using Nat.succ_lt_succ ih

/-- The minimum squared distance is attained at the nearest-centroid
index. -/
theorem minSqDist_eq_nearest {d : ℕ} (p : Pt d) :
    ∀ cs : List (Pt d), cs ≠ [] →
      minSqDist p cs = sqDist p (cs.getD (nearestIdx p cs) (originPt d))
  | [], h => absurd rfl h
  | [c0], _ => by simp [minSqDist, nearestIdx]
  | c0 :: c1 :: cs, _ => by
    simp only [minSqDist, nearestIdx]
    split
    · next h => simpa using min_eq_left h
    · next h =>
      have hlt : minSqDist p (c1 :: cs) < sqDist p c0 := lt_of_not_le h
      rw [min_eq_right (le_of_lt hlt)]
      have ih := minSqDist_eq_nearest p (c1 :: cs) (by simp)
      simpa [List.getD_cons_succ] using ih

/-- An in-range `getD` is a member. -/
theorem getD_mem_of_lt {α : Type} (l : List α) (j : ℕ) (dflt : α)
    (hj : j < l.length) : l.getD j dflt ∈ l := by
  rw [List.getD_eq_getElem?_getD, List.getElem?_eq_getElem hj]
  exact List.getElem_mem hj

/-- A list sum of finite sums commutes to a finite sum of list sums. -/
theorem sum_map_finset_sum {α : Type} {d : ℕ} (l : List α) (f : α → Fin d → ℚ) :
    (l.map fun a => ∑ i, f a i).sum = ∑ i, (l.map fun a => f a i).sum := by
  induction l with
  | nil => simp
  | cons a t ih => simp [ih, Finset.sum_add_distrib]

/-- The coordinate-wise mean of a group minimizes the group's total squared
distance: recomputing a centroid as the mean of its assigned points cannot
increase their cost. -/
theorem centroid_min {d : ℕ} (grp : List (Pt d)) (c : Pt d) :
    (grp.map fun p => sqDist p (centroidOf grp)).sum ≤
      (grp.map fun p => sqDist p c).sum := by
  unfold sqDist
  rw [sum_map_finset_sum, sum_map_finset_sum]
  apply Finset.sum_le_sum
  intro i _
  have hc : centroidOf grp i =
      (grp.map fun p => p i).sum / ((grp.map fun p => p i).length : ℚ) := by
    unfold centroidOf
    rw [List.length_map]
  have e1 : (grp.map fun p => (p i - centroidOf grp i) ^ 2)
      = (grp.map fun p => p i).map fun x =>
          (x - (grp.map fun p => p i).sum / ((grp.map fun p => p i).length : ℚ)) ^ 2 := by
    rw [List.map_map, hc]
    rfl
  have e2 : (grp.map fun p => (p i - c i) ^ 2)
      = (grp.map fun p => p i).map fun x => (x - c i) ^ 2 := by
    rw [List.map_map]
    rfl
  rw [e1, e2]
  exact sum_sq_dev_mean_le _ _

/-- Regrouping a sum over points by the fiber of an index function. -/
theorem sum_fiberwise {α : Type} (ps : List α) (a : α → ℕ) (K : ℕ)
    (h : ∀ p ∈ ps, a p < K) (f : ℕ → α → ℚ) :
    ∑ j ∈ Finset.range K, ((ps.filter fun p => a p == j).map (f j)).sum
      = (ps.map fun p => f (a p) p).sum := by
  induction ps with
  | nil => simp
  | cons x t ih =>
    have hx : a x < K := h x (List.mem_cons_self x t)
    have ht : ∀ p ∈ t, a p < K := fun p hp => h p (List.mem_cons_of_mem x hp)
    simp only [List.map_cons, List.sum_cons]
    rw [← ih ht]
    have hsplit : ∀ j ∈ Finset.range K,
        ((List.filter (fun p => a p == j) (x :: t)).map (f j)).sum
          = (if a x = j then f j x else 0) +
            ((List.filter (fun p => a p == j) t).map (f j)).sum := by
      intro j _
      by_cases hj : a x = j
      · rw [List.filter_cons_of_pos (by simpa using hj), if_pos hj]
        simp
      · rw [List.filter_cons_of_neg (by simpa using hj), if_neg hj, zero_add]
    rw [Finset.sum_congr rfl hsplit, Finset.sum_add_distrib]
    congr 1
    rw [Finset.sum_ite_eq (Finset.range K) (a x) fun j => f j x,
      if_pos (Finset.mem_range.mpr hx)]

/-- A Lloyd step keeps the number of centroids. -/
theorem kmeansStep_length {d : ℕ} (ps cs : List (Pt d)) :
    (kmeansStep ps cs).length = cs.length := by
  unfold kmeansStep
  rw [List.length_map, List.length_range]

/-- The `j`-th centroid after a Lloyd step. -/
theorem kmeansStep_getD {d : ℕ} (ps cs : List (Pt d)) (j : ℕ) (hj : j < cs.length) :
    (kmeansStep ps cs).getD j (originPt d) =
      if (ps.filter fun p => nearestIdx p cs == j).isEmpty then
        cs.getD j (originPt d)
      else centroidOf (ps.filter fun p => nearestIdx p cs == j) := by
  unfold kmeansStep
  rw [List.getD_eq_getElem?_getD, List.getElem?_map, List.getElem?_range hj]
  rfl

/-- One Lloyd step does not increase the inertia: each point first keeps at
most its previous cost against the recomputed centroid of its own cluster
(the mean minimizes the group cost), and then can only improve by moving to
its new nearest centroid. -/
theorem phi_step_le {d : ℕ} (ps cs : List (Pt d)) :
    phi ps (kmeansStep ps cs) ≤ phi ps cs := by
  rcases eq_or_ne cs [] with rfl | hne
  · unfold phi kmeansStep
    simp [minSqDist]
  · have hlen : (kmeansStep ps cs).length = cs.length := kmeansStep_length ps cs
    have ha : ∀ p ∈ ps, nearestIdx p cs < cs.length :=
      fun p _ => nearestIdx_lt_length p cs hne
    have hA : phi ps (kmeansStep ps cs) ≤
        (ps.map fun p =>
          sqDist p ((kmeansStep ps cs).getD (nearestIdx p cs) (originPt d))).sum := by
      unfold phi
      apply List.sum_le_sum
      intro p hp
      apply minSqDist_le_of_mem
      apply getD_mem_of_lt
      rw [hlen]
      exact nearestIdx_lt_length p cs hne
    have hB := sum_fiberwise ps (fun p => nearestIdx p cs) cs.length ha
      fun j p => sqDist p ((kmeansStep ps cs).getD j (originPt d))
    have hD := sum_fiberwise ps (fun p => nearestIdx p cs) cs.length ha
      fun j p => sqDist p (cs.getD j (originPt d))
    have hC : ∑ j ∈ Finset.range cs.length,
        ((ps.filter fun p => nearestIdx p cs == j).map fun p =>
          sqDist p ((kmeansStep ps cs).getD j (originPt d))).sum
        ≤ ∑ j ∈ Finset.range cs.length,
        ((ps.filter fun p => nearestIdx p cs == j).map fun p =>
          sqDist p (cs.getD j (originPt d))).sum := by
      apply Finset.sum_le_sum
      intro j hj
      rw [Finset.mem_range] at hj
      by_cases hemp : (ps.filter fun p => nearestIdx p cs == j).isEmpty
      · rw [List.isEmpty_iff] at hemp
        rw [hemp]
        simp
      · rw [kmeansStep_getD ps cs j hj, if_neg hemp]
        exact centroid_min _ _
    have hphi : (ps.map fun p => sqDist p (cs.getD (nearestIdx p cs) (originPt d))).sum
        = phi ps cs := by
      unfold phi
      congr 1
      apply List.map_congr_left
      intro p hp
      exact (minSqDist_eq_nearest p cs hne).symm
    calc phi ps (kmeansStep ps cs)
        ≤ (ps.map fun p =>
            sqDist p ((kmeansStep ps cs).getD (nearestIdx p cs) (originPt d))).sum := hA
      _ = ∑ j ∈ Finset.range cs.length,
            ((ps.filter fun p => nearestIdx p cs == j).map fun p =>
              sqDist p ((kmeansStep ps cs).getD j (originPt d))).sum := hB.symm
      _ ≤ ∑ j ∈ Finset.range cs.length,
            ((ps.filter fun p => nearestIdx p cs == j).map fun p =>
              sqDist p (cs.getD j (originPt d))).sum := hC
      _ = (ps.map fun p => sqDist p (cs.getD (nearestIdx p cs) (originPt d))).sum := hD
      _ = phi ps cs := hphi

/-- Inertia is non-increasing from each Lloyd iteration to the next. -/
theorem phi_kmeansIter_le {d : ℕ} (ps : List (Pt d)) :
    ∀ (n : ℕ) (cs : List (Pt d)),
      phi ps (kmeansIter ps (n + 1) cs) ≤ phi ps (kmeansIter ps n cs)
  | 0, cs => phi_step_le ps cs
  | n + 1, cs => phi_kmeansIter_le ps n (kmeansStep ps cs)

/-- The convergence loop with fuel `n` performs at most `n` Lloyd
iterations. -/
theorem kmeansLoop_eq_iter {d : ℕ} (ps : List (Pt d)) :
    ∀ (n : ℕ) (cs : List (Pt d)), ∃ m ≤ n, kmeansLoop ps n cs = kmeansIter ps m cs
  | 0, _ => ⟨0, le_refl 0, rfl⟩
  | n + 1, cs => by
    by_cases h : kmeansStep ps cs = cs
    · refine ⟨0, Nat.zero_le _, ?_⟩
      simp only [kmeansLoop]
      rw [if_pos h]
      rfl
    · obtain ⟨m, hm, heq⟩ := kmeansLoop_eq_iter ps n (kmeansStep ps cs)
      refine ⟨m + 1, Nat.succ_le_succ hm, ?_⟩
      simp only [kmeansLoop]
      rw [if_neg h]
      exact heq

/-- C7: across Lloyd iterations (assign to nearest centroid, recompute
centroids as means) the inertia is non-increasing, and the convergence loop
terminates within the configured maximum iteration count: it performs some
number `m ≤ maxIter` of iterations. -/
theorem kmeans_inertia_monotone_terminates {d : ℕ} (ps cs : List (Pt d))
    (n maxIter : ℕ) :
    phi ps (kmeansIter ps (n + 1) cs) ≤ phi ps (kmeansIter ps n cs) ∧
    ∃ m ≤ maxIter, kmeansLoop ps maxIter cs = kmeansIter ps m cs :=
  ⟨phi_kmeansIter_le ps n cs, kmeansLoop_eq_iter ps maxIter cs⟩

/-- C6: the seeded pipeline `fit_predict` is a pure function of the data,
the cluster count and the seed — two runs on the same data with the same
fixed seed and count yield identical cluster assignments. -/
theorem kmeans_deterministic {d : ℕ} (ps1 ps2 : List (Pt d)) (K1 K2 s1 s2 : ℕ)
    (hps : ps1 = ps2) (hK : K1 = K2) (hs : s1 = s2) :
    kmeansFitPredict ps1 K1 s1 = kmeansFitPredict ps2 K2 s2 := by
  subst hps
  subst hK
  subst hs
  rfl

/-- Witness for C6: two runs at `K = 2`, seed 42 on a concrete dataset. -/
theorem kmeans_deterministic_witness :
    kmeansFitPredict [(fun _ => 0 : Pt 1), fun _ => 10] 2 42
      = kmeansFitPredict [(fun _ => 0 : Pt 1), fun _ => 10] 2 42 :=
  kmeans_deterministic [(fun _ => 0 : Pt 1), fun _ => 10]
    [(fun _ => 0 : Pt 1), fun _ => 10] 2 2 42 42 rfl rfl rfl

/-- Squared distance is symmetric. -/
theorem sqDist_comm {d : ℕ} (p q : Pt d) : sqDist p q = sqDist q p := by
  unfold sqDist
  apply Finset.sum_congr rfl
  intro i _
  ring

/-- In-range core points belong to the core index list. -/
theorem mem_coreIndices {d : ℕ} {eps : ℚ} {minPts : ℕ} {ps : List (Pt d)} {c : ℕ}
    (hc : c < ps.length) (hcore : isCorePt eps minPts ps c = true) :
    c ∈ coreIndices eps minPts ps := by
  unfold coreIndices
  rw [List.mem_filter]
  exact ⟨List.mem_range.mpr hc, hcore⟩

/-- Members of the core index list are in-range core points. -/
theorem coreIndices_spec {d : ℕ} {eps : ℚ} {minPts : ℕ} {ps : List (Pt d)} {c : ℕ}
    (h : c ∈ coreIndices eps minPts ps) :
    c < ps.length ∧ isCorePt eps minPts ps c = true := by
  unfold coreIndices at h
  rw [List.mem_filter, List.mem_range] at h
  exact h

/-- The representative of a core point is a recorded cluster
representative. -/
theorem rep_mem_clusterReps {d : ℕ} {eps : ℚ} {minPts : ℕ} {ps : List (Pt d)} {c : ℕ}
    (hc : c ∈ coreIndices eps minPts ps) :
    dbscanRep eps minPts ps c ∈ clusterReps eps minPts ps := by
  unfold clusterReps
  rw [List.mem_dedup]
  exact List.mem_map_of_mem _ hc

/-- The label of a core point. -/
theorem dbscanLabelOf_core {d : ℕ} {eps : ℚ} {minPts : ℕ} {ps : List (Pt d)} {c : ℕ}
    (hcore : isCorePt eps minPts ps c = true) :
    dbscanLabelOf eps minPts ps c =
      ((clusterReps eps minPts ps).indexOf (dbscanRep eps minPts ps c) : ℤ) := by
  unfold dbscanLabelOf
  rw [if_pos hcore]

/-- C9: in the DBSCAN output, every point labelled with the noise sentinel
-1 has fewer than `minPts` neighbors within eps and lies within eps of no
core point; every point assigned to a cluster is reachable from a core
point carrying the same cluster label via a chain of eps-neighborhood
hops; and the cluster labels are contiguous non-negative integers — every
label is either -1 or lies in `0 ..  k-1` where `k` is the number of
clusters, and every value in `0 .. k-1` is the label of some point. -/
theorem dbscan_labels_sound {d : ℕ} (eps : ℚ) (minPts : ℕ) (ps : List (Pt d))
    (i : ℕ) (hi : i < ps.length) :
    (dbscanLabelOf eps minPts ps i = -1 →
      (dNeighbors eps ps i).length < minPts ∧
      ∀ c, c < ps.length → isCorePt eps minPts ps c = true →
        ¬ sqDist (ps.getD i (originPt d)) (ps.getD c (originPt d)) ≤ eps ^ 2) ∧
    (0 ≤ dbscanLabelOf eps minPts ps i →
      ∃ c, isCorePt eps minPts ps c = true ∧
        dbscanLabelOf eps minPts ps c = dbscanLabelOf eps minPts ps i ∧
        EpsChain eps ps c i) ∧
    (dbscanLabelOf eps minPts ps i = -1 ∨
      (0 ≤ dbscanLabelOf eps minPts ps i ∧
        dbscanLabelOf eps minPts ps i < ((clusterReps eps minPts ps).length : ℤ))) ∧
    (∀ m : ℕ, m < (clusterReps eps minPts ps).length →
      ∃ jc, jc < ps.length ∧ dbscanLabelOf eps minPts ps jc = (m : ℤ)) := by
  refine ⟨?_, ?_, ?_, ?_⟩
  · -- noise soundness
    intro hnoise
    by_cases hcore : isCorePt eps minPts ps i = true
    · exfalso
      rw [dbscanLabelOf_core hcore] at hnoise
      omega
    · have hncore : ¬ minPts ≤ (dNeighbors eps ps i).length := by
        simpa [isCorePt] using hcore
      refine ⟨by omega, ?_⟩
      intro c hc hcorec hdist
      have hmem : c ∈ (coreIndices eps minPts ps).filter fun c2 =>
          decide (sqDist (ps.getD i (originPt d)) (ps.getD c2 (originPt d)) ≤ eps ^ 2) := by
        rw [List.mem_filter]
        exact ⟨mem_coreIndices hc hcorec, decide_eq_true hdist⟩
      cases hh : dbscanBorder eps minPts ps i with
      | none =>
        unfold dbscanBorder at hh
        rw [List.head?_eq_none_iff] at hh
        rw [hh] at hmem
        exact absurd hmem (List.not_mem_nil c)
      | some c0 =>
        unfold dbscanLabelOf at hnoise
        rw [if_neg hcore, hh] at hnoise
        simp only [Option.elim_some] at hnoise
        omega
  · -- reachability from a same-labelled core point
    intro hpos
    by_cases hcore : isCorePt eps minPts ps i = true
    · exact ⟨i, hcore, rfl, EpsChain.refl i⟩
    · cases hh : dbscanBorder eps minPts ps i with
      | none =>
        exfalso
        unfold dbscanLabelOf at hpos
        rw [if_neg hcore, hh] at hpos
        simp only [Option.elim_none] at hpos
        omega
      | some c =>
        have hcmem : c ∈ (coreIndices eps minPts ps).filter fun c2 =>
            decide (sqDist (ps.getD i (originPt d)) (ps.getD c2 (originPt d)) ≤ eps ^ 2) := by
          unfold dbscanBorder at hh
          exact List.mem_of_mem_head? (by rw [hh]; exact rfl)
        rw [List.mem_filter] at hcmem
        obtain ⟨hcore2, hdist⟩ := hcmem
        have hcorec : isCorePt eps minPts ps c = true := (coreIndices_spec hcore2).2
        have hdist2 : sqDist (ps.getD c (originPt d)) (ps.getD i (originPt d)) ≤ eps ^ 2 := by
          rw [sqDist_comm]
          exact of_decide_eq_true hdist
        refine ⟨c, hcorec, ?_, EpsChain.step hdist2 (EpsChain.refl i)⟩
        rw [dbscanLabelOf_core hcorec]
        unfold dbscanLabelOf
        rw [if_neg hcore, hh]
        rfl
  · -- label bounds
    by_cases hcore : isCorePt eps minPts ps i = true
    · right
      rw [dbscanLabelOf_core hcore]
      have hmem := rep_mem_clusterReps (mem_coreIndices hi hcore)
      have hlt := List.indexOf_lt_length.mpr hmem
      exact ⟨Int.natCast_nonneg _, by exact_mod_cast hlt⟩
    · cases hh : dbscanBorder eps minPts ps i with
      | none =>
        left
        unfold dbscanLabelOf
        rw [if_neg hcore, hh]
        rfl
      | some c =>
        right
        have hcmem : c ∈ (coreIndices eps minPts ps).filter fun c2 =>
            decide (sqDist (ps.getD i (originPt d)) (ps.getD c2 (originPt d)) ≤ eps ^ 2) := by
          unfold dbscanBorder at hh
          exact List.mem_of_mem_head? (by rw [hh]; exact rfl)
        rw [List.mem_filter] at hcmem
        have hmem := rep_mem_clusterReps hcmem.1
        have hlt := List.indexOf_lt_length.mpr hmem
        unfold dbscanLabelOf
        rw [if_neg hcore, hh]
        simp only [Option.elim_some]
        exact ⟨Int.natCast_nonneg _, by exact_mod_cast hlt⟩
  · -- every cluster number is used
    intro m hm
    have hmem : (clusterReps eps minPts ps)[m] ∈ clusterReps eps minPts ps :=
      List.getElem_mem hm
    have hmap : (clusterReps eps minPts ps)[m] ∈
        (coreIndices eps minPts ps).map (dbscanRep eps minPts ps) := by
      have := hmem
      unfold clusterReps at this
      exact List.mem_dedup.mp this
    obtain ⟨c, hcmem, hrep⟩ := List.mem_map.mp hmap
    obtain ⟨hclen, hccore⟩ := coreIndices_spec hcmem
    refine ⟨c, hclen, ?_⟩
    rw [dbscanLabelOf_core hccore, hrep]
    have hnodup : (clusterReps eps minPts ps).Nodup := List.nodup_dedup _
    rw [List.indexOf_getElem hnodup m hm]

/-- Witness for C9 at the notebook's parameters (eps 1.1, min-samples 3) on
a concrete two-point dataset. -/
theorem dbscan_labels_sound_witness :
    dbscanLabelOf epsNotebook minSamplesNotebook
        [(fun _ => 0 : Pt 1), fun _ => 10] 0 = -1 ∨
    (0 ≤ dbscanLabelOf epsNotebook minSamplesNotebook
        [(fun _ => 0 : Pt 1), fun _ => 10] 0 ∧
      dbscanLabelOf epsNotebook minSamplesNotebook
        [(fun _ => 0 : Pt 1), fun _ => 10] 0 <
        ((clusterReps epsNotebook minSamplesNotebook
          [(fun _ => 0 : Pt 1), fun _ => 10]).length : ℤ)) :=
  (dbscan_labels_sound epsNotebook minSamplesNotebook
    [(fun _ => 0 : Pt 1), fun _ => 10] 0 (by norm_num)).2.2.1

/-- Witness for C10 at the gender string "Other". -/
theorem gender_encoding_nan_witness :
    genderCode "Other" = none ∧
    (fitTransformColOpt [some 1, genderCode "Other", some 0])[1]? = some none := by
  constructor
  · exact gender_encoding_nan.2.2.1 "Other" (by decide) (by decide)
  · exact gender_encoding_nan.2.2.2 [some 1, genderCode "Other", some 0] 1
      (by simp [genderCode])

end Seg

